import Mathlib

/-!
Shallow embedding of the `no_eslint_disable_comments` lint rule
(`crates/oxc_linter/src/rules/oxc/no_eslint_disable_comments.rs`).

Comment texts are modelled as `List Char`.  The Rust code works with byte
offsets into UTF-8 `&str`, but every token it searches for is ASCII and every
slice boundary it produces sits immediately after an ASCII token occurrence or
after a `'\n'`, so character positions and byte positions classify inputs
identically; the char-level model below mirrors the source line by line.
-/

/-- Model of Rust `char::is_whitespace` (the Unicode `White_Space` property),
used by the anchoring check in `find_eslint_comment_directive`. -/
def isRustWhitespace (c : Char) : Bool :=
  c = ' ' || c = '\t' || c = '\n' || c = Char.ofNat 0x0B || c = Char.ofNat 0x0C ||
  c = '\r' || c = Char.ofNat 0x85 || c = Char.ofNat 0xA0 || c = Char.ofNat 0x1680 ||
  (0x2000 ≤ c.toNat && c.toNat ≤ 0x200A) ||
  c = Char.ofNat 0x2028 || c = Char.ofNat 0x2029 || c = Char.ofNat 0x202F ||
  c = Char.ofNat 0x205F || c = Char.ofNat 0x3000

/-- Predicate `headMatch pat s`: holds when `pat` occurs at the very start of `s`
(the comparison Rust performs when testing a candidate substring). -/
def headMatch : List Char → List Char → Bool
  | [], _ => true
  | _ :: _, [] => false
  | p :: ps, c :: cs => if p = c then headMatch ps cs else false

/-- Model of Rust `str::find` for a fixed substring pattern: index of the
first occurrence of `pat` in `s`, or `none`. -/
def findSub (s pat : List Char) : Option Nat :=
  if headMatch pat s then some 0
  else
    match s with
    | [] => none
    | _ :: t => (findSub t pat).map (fun i => i + 1)

/-- The fixed namespace token `"eslint-"` (local `let prefix` in the source). -/
def eslintTok : List Char := "eslint-".toList

/-- The keyword `"disable"`. -/
def disableTok : List Char := "disable".toList

/-- The keyword `"disable-next-line"`. -/
def disableNextLineTok : List Char := "disable-next-line".toList

/-- The source-namespace token for the `"disable"` branch of `run_once`. -/
def eslintDisableTok : List Char := "eslint-disable".toList

/-- The target-namespace replacement for the `"disable"` branch. -/
def oxlintDisableTok : List Char := "oxlint-disable".toList

/-- The source-namespace token for the `"disable-next-line"` branch. -/
def eslintDisableNextLineTok : List Char := "eslint-disable-next-line".toList

/-- The target-namespace replacement for the `"disable-next-line"` branch. -/
def oxlintDisableNextLineTok : List Char := "oxlint-disable-next-line".toList

/-- Mirror of the `char_indices().peekable()` loop at the start of
`find_eslint_comment_directive`: it walks the text and, at every `'\n'`,
stores the index of the following character when the peek succeeds, and
`none` when the `'\n'` is the final character.  `i` is the index of the head
of `l` within the full text and `acc` the `last_line_start` accumulator. -/
def lastLineAux : List Char → Nat → Option Nat → Option Nat
  | [], _, acc => acc
  | c :: rest, i, acc =>
      lastLineAux rest (i + 1)
        (if c = '\n' then (if rest.isEmpty then none else some (i + 1)) else acc)

/-- Mirror of `let multi_len = last_line_start.unwrap_or(0)` from the source. -/
def multi_len (raw : List Char) : Nat := (lastLineAux raw 0 none).getD 0

/-- The per-character anchoring predicate from the source:
`c.is_whitespace() || if single_line { c == '/' } else { c == '*' || c == '/' }`. -/
def leadOk (single_line : Bool) (c : Char) : Bool :=
  isRustWhitespace c || (if single_line then c = '/' else c = '*' || c = '/')

/-- Model of Rust `line.get(start..start+len)`: the sublist when in bounds,
otherwise `none` (a char-boundary failure cannot arise in the char model). -/
def sliceGet (s : List Char) (start len : Nat) : Option (List Char) :=
  if start + len ≤ s.length then some ((s.drop start).take len) else none

/-- Model of `find_eslint_comment_directive(raw, single_line)`.  It mirrors the
source step by step: compute `multi_len`, slice the scanned `line`, find the
first occurrence of `"eslint-"`, check the anchoring of the characters before
it, then test `"disable"` and `"disable-next-line"` in this order, returning
the content that the source reads back from `raw` at the computed offsets. -/
def find_eslint_comment_directive (raw : List Char) (single_line : Bool) :
    Option (List Char) :=
  match findSub (raw.drop (multi_len raw)) eslintTok with
  | none => none
  | some index =>
      if ((raw.drop (multi_len raw)).take index).all (leadOk single_line) then
        if sliceGet (raw.drop (multi_len raw)) (index + eslintTok.length)
            disableTok.length = some disableTok then
          some ((raw.drop (multi_len raw + index + eslintTok.length)).take
            disableTok.length)
        else if sliceGet (raw.drop (multi_len raw)) (index + eslintTok.length)
            disableNextLineTok.length = some disableNextLineTok then
          some ((raw.drop (multi_len raw + index + eslintTok.length)).take
            disableNextLineTok.length)
        else none
      else none

/-- Model of `cow_utils::CowUtils::cow_replace`, which has the semantics of
`str::replace`: every non-overlapping occurrence of `pat`, scanning left to
right, is replaced by `rep`.  The callers in `run_once` only ever pass the
nonempty fixed tokens, so the empty-pattern case (where Rust would interleave
`rep` between all characters) is modelled as the identity. -/
def cow_replace (s pat rep : List Char) : List Char :=
  match pat with
  | [] => s
  | p :: ps =>
      match s with
      | [] => []
      | c :: t =>
          if headMatch (p :: ps) (c :: t) then
            rep ++ cow_replace (t.drop ps.length) (p :: ps) rep
          else
            c :: cow_replace t (p :: ps) rep
termination_by s.length
decreasing_by
  · simp [List.length_drop]; omega
  · simp

/-- The fix computed by `run_once` for a comment with text `raw` once the
scanner returned `directive`: the `match` on the directive content selects
which token pair is passed to `cow_replace`. -/
def run_once_fix (raw directive : List Char) : List Char :=
  if directive = disableTok then
    cow_replace raw eslintDisableTok oxlintDisableTok
  else if directive = disableNextLineTok then
    cow_replace raw eslintDisableNextLineTok oxlintDisableNextLineTok
  else raw

/-- The tail distinguishing the two keywords. -/
def nextLineTail : List Char := "-next-line".toList

/-- The head of `"eslint-disable"` and its tail, for destructuring. -/
def shortTail : List Char := "slint-disable".toList

/-- The first 13 characters of `"oxlint-disable"`, which necessarily precede
any occurrence of `"eslint-disable"` surviving in a rewritten text. -/
def pre13 : List Char := "oxlint-disabl".toList

/-! ### Characterizations of `headMatch`, `findSub`, `lastLineAux`, `sliceGet` -/

theorem hm_iff_take (pat s : List Char) :
    headMatch pat s = true ↔ s.take pat.length = pat ∧ pat.length ≤ s.length := by
  induction pat generalizing s with
  | nil => simp [headMatch]
  | cons p ps ih =>
    cases s with
    | nil => simp [headMatch]
    | cons c cs =>
      by_cases h : p = c
      · subst h
        simp [headMatch, ih, Nat.succ_le_succ_iff]
      · simp only [headMatch, if_neg h, List.length_cons, List.take_succ_cons,
          List.cons.injEq]
        constructor
        · intro hf
          exact absurd hf (by simp)
        · rintro ⟨⟨h1, -⟩, -⟩
          exact absurd h1.symm h

theorem hm_len {pat s : List Char} (h : headMatch pat s = true) :
    pat.length ≤ s.length := ((hm_iff_take pat s).mp h).2

theorem hm_take {pat s : List Char} (h : headMatch pat s = true) :
    s.take pat.length = pat := ((hm_iff_take pat s).mp h).1

theorem hm_of_take {pat s : List Char} (h1 : s.take pat.length = pat)
    (h2 : pat.length ≤ s.length) : headMatch pat s = true :=
  (hm_iff_take pat s).mpr ⟨h1, h2⟩

theorem hm_of_append (pat t : List Char) : headMatch pat (pat ++ t) = true :=
  hm_of_take (List.take_left pat t) (by simp)

theorem hm_append_intro {a b s : List Char} (ha : headMatch a s = true)
    (hb : headMatch b (s.drop a.length) = true) : headMatch (a ++ b) s = true := by
  have hla := hm_len ha
  have hlb := hm_len hb
  simp only [List.length_drop] at hlb
  refine hm_of_take ?_ (by simp; omega)
  rw [List.length_append, List.take_add, hm_take ha, hm_take hb]

theorem hm_append_elim {a b s : List Char} (h : headMatch (a ++ b) s = true) :
    headMatch a s = true ∧ headMatch b (s.drop a.length) = true := by
  have hl := hm_len h
  simp only [List.length_append] at hl
  have hta : s.take a.length = a := by
    have h2 := congrArg (List.take a.length) (hm_take h)
    rwa [List.take_take, List.take_left, List.length_append, Nat.min_def,
      if_pos (Nat.le_add_right _ _)] at h2
  have ht := hm_take h
  rw [List.length_append, List.take_add, hta] at ht
  have htb := List.append_cancel_left ht
  exact ⟨hm_of_take hta (by omega), hm_of_take htb (by simp; omega)⟩

theorem hm_head {p : Char} {ps s : List Char} (h : headMatch (p :: ps) s = true) :
    s.head? = some p := by
  cases s with
  | nil => exact absurd h (by simp [headMatch])
  | cons c cs =>
    simp only [headMatch] at h
    by_cases hc : p = c
    · simp [hc]
    · rw [if_neg hc] at h
      exact absurd h (by simp)

theorem hm_nil_iff (pat : List Char) : headMatch pat [] = true ↔ pat = [] := by
  cases pat <;> simp [headMatch]

theorem findSub_none_iff (s pat : List Char) :
    findSub s pat = none ↔ ∀ i, headMatch pat (s.drop i) = false := by
  induction s with
  | nil =>
    by_cases h : headMatch pat []
    · simp only [findSub, if_pos h]
      constructor
      · intro hc
        exact absurd hc (by simp)
      · intro hall
        have h0 := hall 0
        rw [List.drop_nil, h] at h0
        exact absurd h0 (by simp)
    · have hf : headMatch pat [] = false := by
        cases hm : headMatch pat []
        · rfl
        · exact absurd hm h
      simp only [findSub, if_neg h]
      constructor
      · intro _ i
        rw [List.drop_nil]
        exact hf
      · intro _
        trivial
  | cons c t ih =>
    by_cases h : headMatch pat (c :: t)
    · simp only [findSub, if_pos h]
      constructor
      · intro hc; exact absurd hc (by simp)
      · intro hall; exact absurd (hall 0) (by simp [h])
    · simp only [findSub, if_neg h, Option.map_eq_none', ih]
      constructor
      · intro hall i
        cases i with
        | zero => simpa using h
        | succ j => simpa using hall j
      · intro hall j
        simpa using hall (j + 1)

theorem findSub_some_hm {s pat : List Char} {i : Nat}
    (h : findSub s pat = some i) : headMatch pat (s.drop i) = true := by
  induction s generalizing i with
  | nil =>
    by_cases hh : headMatch pat [] <;> simp [findSub, hh] at h
    subst h; simpa using hh
  | cons c t ih =>
    by_cases hh : headMatch pat (c :: t)
    · simp only [findSub, if_pos hh, Option.some.injEq] at h
      subst h; simpa using hh
    · simp only [findSub, if_neg hh, Option.map_eq_some'] at h
      obtain ⟨j, hj, hij⟩ := h
      subst hij
      simpa using ih hj

theorem lastLineAux_no_nl {l : List Char} (h : '\n' ∉ l) (i : Nat)
    (acc : Option Nat) : lastLineAux l i acc = acc := by
  induction l generalizing i acc with
  | nil => rfl
  | cons c t ih =>
    simp only [List.mem_cons, not_or] at h
    have hc : ¬(c = '\n') := fun hc => h.1 hc.symm
    simp only [lastLineAux, if_neg hc]
    exact ih h.2 _ _

theorem lastLineAux_last {b : List Char} (hnl : '\n' ∉ b) (hne : b ≠ [])
    (a : List Char) (i : Nat) (acc : Option Nat) :
    lastLineAux (a ++ '\n' :: b) i acc = some (i + a.length + 1) := by
  induction a generalizing i acc with
  | nil =>
    have hb : b.isEmpty = false := by
      cases b with
      | nil => exact absurd rfl hne
      | cons x xs => rfl
    rw [List.nil_append]
    show lastLineAux b (i + 1)
      (if ('\n' : Char) = '\n' then (if b.isEmpty then none else some (i + 1))
        else acc) = _
    rw [if_pos rfl, hb]
    show lastLineAux b (i + 1) (some (i + 1)) = _
    rw [lastLineAux_no_nl hnl]
    simp
  | cons c a' ih =>
    simp only [List.cons_append, lastLineAux, List.append_eq]
    rw [ih]
    simp only [Option.some.injEq, List.length_cons]
    omega

theorem lastLineAux_sound {l : List Char} {i : Nat} {acc : Option Nat} {v : Nat}
    (h : lastLineAux l i acc = some v) :
    acc = some v ∨ ∃ k, l[k]? = some '\n' ∧ v = i + k + 1 := by
  induction l generalizing i acc with
  | nil => exact Or.inl h
  | cons c t ih =>
    simp only [lastLineAux] at h
    rcases ih h with hacc | ⟨k, hk, hv⟩
    · by_cases hc : c = '\n'
      · subst hc
        rw [if_pos rfl] at hacc
        by_cases ht : t.isEmpty
        · rw [if_pos ht] at hacc; exact absurd hacc (by simp)
        · rw [if_neg ht] at hacc
          refine Or.inr ⟨0, by simp, ?_⟩
          simpa using hacc.symm
      · rw [if_neg hc] at hacc
        exact Or.inl hacc
    · exact Or.inr ⟨k + 1, by simpa using hk, by omega⟩

theorem multi_len_no_nl {l : List Char} (h : '\n' ∉ l) : multi_len l = 0 := by
  simp [multi_len, lastLineAux_no_nl h]

theorem multi_len_last {b : List Char} (hnl : '\n' ∉ b) (hne : b ≠ [])
    (a : List Char) : multi_len (a ++ '\n' :: b) = a.length + 1 := by
  simp [multi_len, lastLineAux_last hnl hne]

theorem multi_len_nl {raw : List Char} (h : 1 ≤ multi_len raw) :
    raw[multi_len raw - 1]? = some '\n' := by
  unfold multi_len at h ⊢
  cases hv : lastLineAux raw 0 none with
  | none => rw [hv] at h; simp at h
  | some v =>
    rw [hv] at h
    simp only [Option.getD_some] at h ⊢
    rcases lastLineAux_sound hv with hacc | ⟨k, hk, hkv⟩
    · exact absurd hacc (by simp)
    · subst hkv
      simpa using hk

theorem sliceGet_eq_some {s w : List Char} {a n : Nat} :
    sliceGet s a n = some w ↔ a + n ≤ s.length ∧ (s.drop a).take n = w := by
  unfold sliceGet
  split
  · next h => simp [h]
  · next h => simp [h]

/-! ### Inversion and construction lemmas for the scanner -/

theorem tok_split : eslintDisableTok = eslintTok ++ disableTok := by decide

theorem long_split : eslintDisableNextLineTok = eslintDisableTok ++ nextLineTail := by
  decide

theorem oxLong_split : oxlintDisableNextLineTok = oxlintDisableTok ++ nextLineTail := by
  decide

/-- Inversion of a successful scan: it always comes from the `"disable"`
branch, the prefix occurrence is anchored, and the whole token
`"eslint-disable"` occurs at the found index of the scanned line. -/
theorem find_some_inv {raw : List Char} {flag : Bool} {d : List Char}
    (h : find_eslint_comment_directive raw flag = some d) :
    ∃ i, findSub (raw.drop (multi_len raw)) eslintTok = some i ∧
      ((raw.drop (multi_len raw)).take i).all (leadOk flag) = true ∧
      headMatch eslintDisableTok ((raw.drop (multi_len raw)).drop i) = true ∧
      d = disableTok := by
  unfold find_eslint_comment_directive at h
  split at h
  · exact absurd h (by simp)
  · rename_i i hfs
    by_cases hanch :
        ((raw.drop (multi_len raw)).take i).all (leadOk flag) = true
    · rw [if_pos hanch] at h
      by_cases h7 : sliceGet (raw.drop (multi_len raw)) (i + eslintTok.length)
          disableTok.length = some disableTok
      · rw [if_pos h7] at h
        obtain ⟨hb, ht⟩ := sliceGet_eq_some.mp h7
        have hmE : headMatch eslintTok ((raw.drop (multi_len raw)).drop i) = true :=
          findSub_some_hm hfs
        have hmD : headMatch disableTok
            ((raw.drop (multi_len raw)).drop (i + eslintTok.length)) = true := by
          apply hm_of_take ht
          simp only [List.length_drop] at *
          omega
        have hmSD : headMatch eslintDisableTok
            ((raw.drop (multi_len raw)).drop i) = true := by
          rw [tok_split]
          apply hm_append_intro hmE
          rw [List.drop_drop]
          exact hmD
        refine ⟨i, hfs, hanch, hmSD, ?_⟩
        simp only [Option.some.injEq] at h
        rw [← h]
        have hdr : raw.drop (multi_len raw + i + eslintTok.length)
            = (raw.drop (multi_len raw)).drop (i + eslintTok.length) := by
          rw [List.drop_drop, Nat.add_assoc]
        rw [hdr]
        exact ht
      · rw [if_neg h7] at h
        by_cases h17 : sliceGet (raw.drop (multi_len raw)) (i + eslintTok.length)
            disableNextLineTok.length = some disableNextLineTok
        · exfalso
          apply h7
          obtain ⟨hb17, ht17⟩ := sliceGet_eq_some.mp h17
          rw [sliceGet_eq_some]
          have l7 : disableTok.length = 7 := by decide
          have l17 : disableNextLineTok.length = 17 := by decide
          constructor
          · omega
          · have hmin : min disableTok.length disableNextLineTok.length
                = disableTok.length := by decide
            rw [← hmin, ← List.take_take, ht17]
            decide
        · rw [if_neg h17] at h
          exact absurd h (by simp)
    · rw [if_neg hanch] at h
      exact absurd h (by simp)

theorem find_none_of_findSub {raw : List Char} {flag : Bool}
    (h : findSub (raw.drop (multi_len raw)) eslintTok = none) :
    find_eslint_comment_directive raw flag = none := by
  cases hf : find_eslint_comment_directive raw flag with
  | none => rfl
  | some d =>
    obtain ⟨j, hj, -, -, -⟩ := find_some_inv hf
    rw [h] at hj
    exact absurd hj (by simp)

theorem find_none_of_anchor {raw : List Char} {flag : Bool} {i : Nat}
    (hfs : findSub (raw.drop (multi_len raw)) eslintTok = some i)
    (ha : ((raw.drop (multi_len raw)).take i).all (leadOk flag) = false) :
    find_eslint_comment_directive raw flag = none := by
  cases hf : find_eslint_comment_directive raw flag with
  | none => rfl
  | some d =>
    obtain ⟨j, hj, hanch, -, -⟩ := find_some_inv hf
    rw [hfs] at hj
    have hij : i = j := by simpa using hj
    rw [← hij, ha] at hanch
    exact absurd hanch (by simp)

/-! ### Equation lemmas and structural lemmas for `cow_replace` -/

theorem cow_replace_nil_pat (s rep : List Char) : cow_replace s [] rep = s := by
  simp [cow_replace]

theorem cow_replace_nil {pat : List Char} (h : pat ≠ []) (rep : List Char) :
    cow_replace [] pat rep = [] := by
  cases pat with
  | nil => exact absurd rfl h
  | cons p ps => simp [cow_replace]

theorem cow_replace_pos {pat s : List Char} (hp : pat ≠ [])
    (hm : headMatch pat s = true) (rep : List Char) :
    cow_replace s pat rep = rep ++ cow_replace (s.drop pat.length) pat rep := by
  cases pat with
  | nil => exact absurd rfl hp
  | cons p ps =>
    cases s with
    | nil => exact absurd hm (by simp [headMatch])
    | cons c t =>
      rw [List.length_cons, List.drop_succ_cons]
      simp only [cow_replace, if_pos hm]

theorem cow_replace_neg {pat : List Char} {c : Char} {t : List Char}
    (hm : headMatch pat (c :: t) = false) (rep : List Char) :
    cow_replace (c :: t) pat rep = c :: cow_replace t pat rep := by
  cases pat with
  | nil => simp [headMatch] at hm
  | cons p ps =>
    simp only [cow_replace]
    rw [if_neg (by rw [hm]; simp)]

theorem tok_cons : eslintDisableTok = 'e' :: shortTail := by decide

theorem shortTail_drop : shortTail = eslintDisableTok.drop 1 := by decide

/-- If a nonempty suffix of the keyword token occurs at the very start of a
rewritten text, it already occurred at the very start of the original text:
the rewrite never manufactures a fresh leading fragment of
`"eslint-disable"`, because `"oxlint-disable"` starts with `'o'`, a
character that does not occur in `"eslint-disable"`. -/
theorem cow_q_aux (n : Nat) :
    ∀ s : List Char, s.length ≤ n → ∀ k, 1 ≤ k →
      headMatch (eslintDisableTok.drop k)
        (cow_replace s eslintDisableTok oxlintDisableTok) = true →
      headMatch (eslintDisableTok.drop k) s = true := by
  induction n with
  | zero =>
    intro s hs k _ h
    have hs0 : s = [] := List.length_eq_zero.mp (Nat.le_zero.mp hs)
    subst hs0
    rwa [cow_replace_nil (by decide)] at h
  | succ n ih =>
    intro s hs k hk h
    by_cases hke : eslintDisableTok.drop k = []
    · rw [hke]
      cases s <;> rfl
    · obtain ⟨p, ps, hpps⟩ := List.exists_cons_of_ne_nil hke
      by_cases hm : headMatch eslintDisableTok s = true
      · exfalso
        rw [cow_replace_pos (by decide) hm, hpps] at h
        have hh := hm_head h
        rw [List.head?_append] at hh
        have ho : oxlintDisableTok.head? = some 'o' := by decide
        rw [ho, Option.or_some] at hh
        have hpo : p = 'o' := by simpa using hh.symm
        have hp : p ∈ eslintDisableTok := by
          have hfrom : (eslintDisableTok.drop k).head? = some p := by
            rw [hpps]; rfl
          rw [List.head?_drop] at hfrom
          exact List.getElem?_mem hfrom
        rw [hpo] at hp
        exact absurd hp (by decide)
      · have hmf : headMatch eslintDisableTok s = false := by
          cases hx : headMatch eslintDisableTok s
          · rfl
          · exact absurd hx hm
        cases s with
        | nil => rwa [cow_replace_nil (by decide)] at h
        | cons c t =>
          rw [cow_replace_neg hmf] at h
          have hps : ps = eslintDisableTok.drop (k + 1) := by
            have hcg := congrArg (List.drop 1) hpps
            rw [List.drop_drop] at hcg
            simpa using hcg.symm
          rw [hpps] at h ⊢
          simp only [headMatch] at h ⊢
          by_cases hpc : p = c
          · rw [if_pos hpc] at h ⊢
            rw [hps] at h ⊢
            have hlen : t.length ≤ n := by
              simp only [List.length_cons] at hs
              omega
            exact ih t hlen (k + 1) (by omega) h
          · rw [if_neg hpc] at h
            exact absurd h (by simp)

theorem cow_q {s : List Char} {k : Nat} (hk : 1 ≤ k)
    (h : headMatch (eslintDisableTok.drop k)
      (cow_replace s eslintDisableTok oxlintDisableTok) = true) :
    headMatch (eslintDisableTok.drop k) s = true :=
  cow_q_aux s.length s le_rfl k hk h

/-- Any occurrence of `"eslint-disable"` in a rewritten text is immediately
preceded by the 13 characters `"oxlint-disabl"`: the only way the source
token can survive `cow_replace` is by straddling the final `'e'` of an
inserted `"oxlint-disable"`. -/
theorem drop_append_sub {a b : List Char} {n : Nat} (h : a.length ≤ n) :
    (a ++ b).drop n = b.drop (n - a.length) := by
  have hn : n = a.length + (n - a.length) := by omega
  conv_lhs => rw [hn]
  exact List.drop_append _

theorem cow_p_aux (n : Nat) :
    ∀ s : List Char, s.length ≤ n → ∀ r,
      headMatch eslintDisableTok
        ((cow_replace s eslintDisableTok oxlintDisableTok).drop r) = true →
      13 ≤ r ∧ headMatch pre13
        ((cow_replace s eslintDisableTok oxlintDisableTok).drop (r - 13)) = true := by
  induction n with
  | zero =>
    intro s hs r h
    have hs0 : s = [] := List.length_eq_zero.mp (Nat.le_zero.mp hs)
    subst hs0
    rw [cow_replace_nil (by decide), List.drop_nil] at h
    exact absurd h (by decide)
  | succ n ih =>
    intro s hs r h
    by_cases hm : headMatch eslintDisableTok s = true
    · have hsne : s ≠ [] := by
        intro hnil
        rw [hnil] at hm
        exact absurd hm (by decide)
      have hlen : (s.drop eslintDisableTok.length).length ≤ n := by
        have h1 : 1 ≤ s.length := List.length_pos.mpr hsne
        have h14 : eslintDisableTok.length = 14 := by decide
        simp only [List.length_drop, h14]
        omega
      have lox : oxlintDisableTok.length = 14 := by decide
      rw [cow_replace_pos (by decide) hm] at h ⊢
      by_cases hr : 14 ≤ r
      · have hdr : (oxlintDisableTok ++
            cow_replace (s.drop eslintDisableTok.length) eslintDisableTok
              oxlintDisableTok).drop r
            = (cow_replace (s.drop eslintDisableTok.length) eslintDisableTok
              oxlintDisableTok).drop (r - 14) := by
          rw [drop_append_sub (by rw [lox]; omega), lox]
        rw [hdr] at h
        obtain ⟨h13, hp⟩ := ih _ hlen (r - 14) h
        refine ⟨by omega, ?_⟩
        have hdr2 : (oxlintDisableTok ++
            cow_replace (s.drop eslintDisableTok.length) eslintDisableTok
              oxlintDisableTok).drop (r - 13)
            = (cow_replace (s.drop eslintDisableTok.length) eslintDisableTok
              oxlintDisableTok).drop (r - 14 - 13) := by
          rw [drop_append_sub (by rw [lox]; omega), lox]
          congr 1
        rw [hdr2]
        exact hp
      · have hdr : (oxlintDisableTok ++
            cow_replace (s.drop eslintDisableTok.length) eslintDisableTok
              oxlintDisableTok).drop r
            = oxlintDisableTok.drop r ++
              cow_replace (s.drop eslintDisableTok.length) eslintDisableTok
                oxlintDisableTok :=
          List.drop_append_of_le_length (by rw [lox]; omega)
        rw [hdr] at h
        by_cases hr13 : r = 13
        · subst hr13
          refine ⟨le_refl 13, ?_⟩
          have hsplit : oxlintDisableTok = pre13 ++ ['e'] := by decide
          rw [show (13 : Nat) - 13 = 0 from rfl, List.drop_zero, hsplit,
            List.append_assoc]
          exact hm_of_append pre13 _
        · exfalso
          have hne2 : oxlintDisableTok.drop r ≠ [] := by
            rw [Ne, List.drop_eq_nil_iff, lox]
            omega
          rw [tok_cons] at h
          have hh := hm_head h
          rw [List.head?_append, List.head?_drop] at hh
          have hget : oxlintDisableTok[r]? = some 'e' := by
            cases hg : oxlintDisableTok[r]? with
            | none =>
              rw [List.getElem?_eq_none_iff, lox] at hg
              exact absurd (by omega : (14 : Nat) ≤ r) hr
            | some x =>
              rw [hg, Option.or_some] at hh
              exact hh
          have hnotE : ∀ j, j < 14 → j ≠ 13 → oxlintDisableTok[j]? ≠ some 'e' := by
            decide
          exact hnotE r (by omega) hr13 hget
    · have hmf : headMatch eslintDisableTok s = false := by
        cases hx : headMatch eslintDisableTok s
        · rfl
        · exact absurd hx hm
      cases s with
      | nil =>
        rw [cow_replace_nil (by decide), List.drop_nil] at h
        exact absurd h (by decide)
      | cons c t =>
        rw [cow_replace_neg hmf] at h ⊢
        cases r with
        | zero =>
          exfalso
          rw [List.drop_zero, tok_cons] at h
          simp only [headMatch] at h
          by_cases hec : 'e' = c
          · rw [if_pos hec] at h
            rw [shortTail_drop] at h
            have hq := cow_q (k := 1) (by omega) h
            apply hm
            rw [tok_cons]
            simp only [headMatch, if_pos hec]
            rw [shortTail_drop]
            exact hq
          · rw [if_neg hec] at h
            exact absurd h (by simp)
        | succ r' =>
          rw [List.drop_succ_cons] at h
          have hlen : t.length ≤ n := by
            simp only [List.length_cons] at hs
            omega
          obtain ⟨h13, hp⟩ := ih t hlen r' h
          refine ⟨by omega, ?_⟩
          have hsum : r' + 1 - 13 = (r' - 13) + 1 := by omega
          rw [hsum, List.drop_succ_cons]
          exact hp

theorem cow_p {s : List Char} {r : Nat}
    (h : headMatch eslintDisableTok
      ((cow_replace s eslintDisableTok oxlintDisableTok).drop r) = true) :
    13 ≤ r ∧ headMatch pre13
      ((cow_replace s eslintDisableTok oxlintDisableTok).drop (r - 13)) = true :=
  cow_p_aux s.length s le_rfl r h

/-- With no occurrence of the pattern anywhere, `cow_replace` is the identity. -/
theorem cow_no_occ {s pat rep : List Char}
    (h : ∀ r, headMatch pat (s.drop r) = false) :
    cow_replace s pat rep = s := by
  cases hp : pat with
  | nil => exact cow_replace_nil_pat s rep
  | cons p ps =>
    rw [← hp]
    have hpne : pat ≠ [] := by rw [hp]; simp
    induction s with
    | nil => exact cow_replace_nil hpne rep
    | cons c t ih =>
      have h0 : headMatch pat (c :: t) = false := by
        have := h 0
        rwa [List.drop_zero] at this
      rw [cow_replace_neg h0, ih]
      intro r
      have := h (r + 1)
      rwa [List.drop_succ_cons] at this

/-- Lemma: `cow_replace` substitutes an occurrence of the pattern preceded by
occurrence-free text, and then continues scanning after it. -/
theorem cow_keep {pat rep : List Char} (hp : pat ≠ []) :
    ∀ u v : List Char,
      (∀ r, r < u.length → headMatch pat ((u ++ pat ++ v).drop r) = false) →
      cow_replace (u ++ pat ++ v) pat rep = u ++ rep ++ cow_replace v pat rep := by
  intro u
  induction u with
  | nil =>
    intro v _
    rw [List.nil_append, List.nil_append]
    rw [cow_replace_pos hp (hm_of_append pat v) rep, List.drop_left]
  | cons c u' ih =>
    intro v hno
    have h0 : headMatch pat (((c :: u') ++ pat ++ v)) = false := by
      have := hno 0 (by simp)
      rwa [List.drop_zero] at this
    have hcons : (c :: u') ++ pat ++ v = c :: (u' ++ pat ++ v) := by simp
    rw [hcons] at h0
    rw [hcons, cow_replace_neg h0, ih v ?_]
    · simp
    · intro r hr
      have := hno (r + 1) (by simp; omega)
      rwa [hcons, List.drop_succ_cons] at this

/-- Any position carrying an occurrence of a nonempty pattern is inside the
text. -/
theorem occ_bound {pat l : List Char} {r : Nat} (hp : pat ≠ [])
    (h : headMatch pat (l.drop r) = true) : r < l.length := by
  have hlen := hm_len h
  simp only [List.length_drop] at hlen
  have h1 : 1 ≤ pat.length := List.length_pos.mpr hp
  omega

/-! ### The claims -/

/-- Claim C1: the claim states that for a last line containing the anchored
token `"eslint-"` followed by `"disable-next-line"`, the scan classifies the
match as the longer keyword `DisableNextLine` (longer keyword tested first);
in particular for the content of `"/* eslint-disable-next-line */"`.  The code
does the opposite: the loop tests `"disable"` before `"disable-next-line"`,
and since the shorter keyword is a textual prefix of the longer one it always
wins, so the scan reports `"disable"` on exactly this input and the
`"disable-next-line"` arm of `run_once` (with its dedicated diagnostic) is
dead code. -/
theorem claim_C1 :
    find_eslint_comment_directive " eslint-disable-next-line */".toList false
      = some "disable".toList := by decide

/-- Claim C3 (amended): the scanner inspects only the last line provided the
text does not end in a line break: for `a ++ '\n' :: b` with `b` nonempty and
newline-free, if `b` contains no occurrence of `"eslint-"` then the scan
returns no match, even when `a` holds a whole directive.  (For a text that
ends in `'\n'` the peekable loop stores `none` and the whole text is scanned
instead — see the counterexample.) -/
theorem claim_C3 (a b : List Char) (flag : Bool) (hnl : '\n' ∉ b)
    (hne : b ≠ []) (hno : findSub b eslintTok = none) :
    find_eslint_comment_directive (a ++ '\n' :: b) flag = none := by
  apply find_none_of_findSub
  rw [multi_len_last hnl hne, List.append_cons,
    List.drop_left' (show (a ++ ['\n']).length = a.length + 1 by simp)]
  exact hno

/-- Witness for C3: an earlier line holds a full `"eslint-disable"` directive,
the last line holds none, and the scan reports no match. -/
theorem claim_C3_witness :
    find_eslint_comment_directive
      ("eslint-disable".toList ++ '\n' :: " f();".toList) true = none :=
  claim_C3 "eslint-disable".toList " f();".toList true (by decide) (by decide)
    (by decide)

/-- Counterexample for C3 as stated: `"eslint-disable\n"` ends with a line
break, so its last line — the segment after the final break, here empty —
contains no occurrence of the token; the claim then demands no match, but the
scanner matches, because a trailing `'\n'` resets `last_line_start` to `None`
and the whole text is scanned. -/
theorem claim_C3_cex :
    find_eslint_comment_directive "eslint-disable\n".toList true
        = some "disable".toList ∧
      ("eslint-disable\n".toList).drop 15 = [] := by
  constructor
  · decide
  · decide

/-- Claim C7: anchoring.  If the first occurrence of `"eslint-"` on the
scanned last line is preceded there by any character that is neither
whitespace nor an allowed leading delimiter, the scanner reports no match.
Stated for texts with a line break not at the end (first conjunct, last line
`b`) and for texts without any line break (second conjunct); texts ending in
a line break have an empty last line and are vacuous for the claim. -/
theorem claim_C7 :
    (∀ (a b : List Char) (flag : Bool) (i : Nat) (c : Char), '\n' ∉ b →
      findSub b eslintTok = some i → c ∈ b.take i → leadOk flag c = false →
      find_eslint_comment_directive (a ++ '\n' :: b) flag = none) ∧
    (∀ (b : List Char) (flag : Bool) (i : Nat) (c : Char), '\n' ∉ b →
      findSub b eslintTok = some i → c ∈ b.take i → leadOk flag c = false →
      find_eslint_comment_directive b flag = none) := by
  have key : ∀ (b : List Char) (flag : Bool) (i : Nat) (c : Char),
      c ∈ b.take i → leadOk flag c = false →
      (b.take i).all (leadOk flag) = false := by
    intro b flag i c hc hbad
    cases hx : (b.take i).all (leadOk flag)
    · rfl
    · rw [List.all_eq_true] at hx
      rw [hx c hc] at hbad
      exact absurd hbad (by simp)
  constructor
  · intro a b flag i c hnl hfs hc hbad
    have hne : b ≠ [] := by
      intro hb
      rw [hb] at hfs
      rw [show findSub [] eslintTok = none from by decide] at hfs
      exact absurd hfs (by simp)
    have hdrop : (a ++ '\n' :: b).drop (multi_len (a ++ '\n' :: b)) = b := by
      rw [multi_len_last hnl hne, List.append_cons,
        List.drop_left' (show (a ++ ['\n']).length = a.length + 1 by simp)]
    exact find_none_of_anchor (by rw [hdrop]; exact hfs)
      (by rw [hdrop]; exact key b flag i c hc hbad)
  · intro b flag i c hnl hfs hc hbad
    have hdrop : b.drop (multi_len b) = b := by
      rw [multi_len_no_nl hnl, List.drop_zero]
    exact find_none_of_anchor (by rw [hdrop]; exact hfs)
      (by rw [hdrop]; exact key b flag i c hc hbad)

/-- Witness for C7: in `"a eslint-disable"` the prefix occurrence at index 2
is preceded by the letter `'a'`, which is neither whitespace nor `'/'`, and
the scan reports no match. -/
theorem claim_C7_witness :
    find_eslint_comment_directive "a eslint-disable".toList true = none :=
  claim_C7.2 "a eslint-disable".toList true 2 'a' (by decide) (by decide)
    (by decide) (by decide)

/-- Claim C8: whenever the scanner returns a match, the returned content —
read back from the original text at the computed offsets — equals exactly
`"disable"` or `"disable-next-line"`, so the internal debug assertion holds
(and the total Lean model witnesses termination on every input). -/
theorem claim_C8 (raw : List Char) (flag : Bool) (d : List Char)
    (h : find_eslint_comment_directive raw flag = some d) :
    d = "disable".toList ∨ d = "disable-next-line".toList := by
  obtain ⟨i, -, -, -, hd⟩ := find_some_inv h
  exact Or.inl hd

/-- Witness for C8 at the input `"eslint-disable"`. -/
theorem claim_C8_witness :
    find_eslint_comment_directive "eslint-disable".toList true
        = some "disable".toList ∧
      ("disable".toList = "disable".toList ∨
        "disable".toList = "disable-next-line".toList) :=
  ⟨by decide, claim_C8 "eslint-disable".toList true "disable".toList (by decide)⟩

/-- Claim C9: a text with no occurrence of `"eslint-"` anywhere scans to no
match, for either value of the single-line flag. -/
theorem claim_C9 (raw : List Char) (flag : Bool)
    (h : ∀ r, headMatch eslintTok (raw.drop r) = false) :
    find_eslint_comment_directive raw flag = none := by
  apply find_none_of_findSub
  rw [findSub_none_iff]
  intro i
  rw [List.drop_drop]
  exact h _

/-- Witness for C9 at the input `"hello"`. -/
theorem claim_C9_witness :
    find_eslint_comment_directive "hello".toList true = none :=
  claim_C9 "hello".toList true (fun r => by
    cases hx : headMatch eslintTok ("hello".toList.drop r)
    · rfl
    · have hb : r < 5 := by
        have h1 := occ_bound (by decide) hx
        have h2 : ("hello".toList).length = 5 := by decide
        omega
      have hv := (by decide : ∀ j, j < 5 →
        headMatch eslintTok ("hello".toList.drop j) = false) r hb
      rw [hx] at hv
      exact hv)

/-- Claim C10 (implicit): the scanner only ever returns `"disable"` — never
`"disable-next-line"` — because the shorter keyword is tested first and
matches whenever the longer one would; hence the `"disable-next-line"`
branch of `run_once` is unreachable. -/
theorem claim_C10 (raw : List Char) (flag : Bool) (d : List Char)
    (h : find_eslint_comment_directive raw flag = some d) :
    d = "disable".toList := by
  obtain ⟨i, -, -, -, hd⟩ := find_some_inv h
  exact hd

/-- Witness for C10 at an input whose last line carries the longer keyword. -/
theorem claim_C10_witness :
    find_eslint_comment_directive "eslint-disable-next-line".toList true
        = some "disable".toList ∧
      "disable".toList = "disable".toList :=
  ⟨by decide, claim_C10 "eslint-disable-next-line".toList true "disable".toList
    (by decide)⟩

/-- Claim C2 (amended): the rewrite substitutes every leftmost,
non-overlapping occurrence of the source token — not only the first: prefixed
by occurrence-free text, the token is replaced and the scan continues after
it (first conjunct, applicable repeatedly); and if no occurrence exists the
text is returned unchanged (second conjunct). -/
theorem claim_C2 :
    (∀ pat rep u v : List Char, pat ≠ [] →
      (∀ r, r < u.length → headMatch pat ((u ++ pat ++ v).drop r) = false) →
      cow_replace (u ++ pat ++ v) pat rep = u ++ rep ++ cow_replace v pat rep) ∧
    (∀ pat rep s : List Char, (∀ r, headMatch pat (s.drop r) = false) →
      cow_replace s pat rep = s) :=
  ⟨fun _ _ u v hp hno => cow_keep hp u v hno,
   fun _ _ _ hno => cow_no_occ hno⟩

/-- Witness for C2 on `"// eslint-disable x"`. -/
theorem claim_C2_witness :
    cow_replace ("// ".toList ++ eslintDisableTok ++ " x".toList)
        eslintDisableTok oxlintDisableTok
      = "// ".toList ++ oxlintDisableTok ++
          cow_replace (" x".toList) eslintDisableTok oxlintDisableTok :=
  claim_C2.1 eslintDisableTok oxlintDisableTok "// ".toList " x".toList
    (by decide) (by decide)

/-- Counterexample for C2 as stated: on a text with two occurrences of
`"eslint-disable"`, `cow_replace` (the semantics of `str::replace`)
substitutes both, so the text after the first occurrence is not left
unchanged. -/
theorem claim_C2_cex :
    run_once_fix (eslintDisableTok ++ ' ' :: eslintDisableTok) disableTok
      = oxlintDisableTok ++ ' ' :: oxlintDisableTok ∧
    (run_once_fix (eslintDisableTok ++ ' ' :: eslintDisableTok)
        disableTok).drop 15
      ≠ (eslintDisableTok ++ ' ' :: eslintDisableTok).drop 15 := by
  have h1 : run_once_fix (eslintDisableTok ++ ' ' :: eslintDisableTok) disableTok
      = oxlintDisableTok ++ ' ' :: oxlintDisableTok := by
    simp [run_once_fix, cow_replace, eslintDisableTok, oxlintDisableTok,
      headMatch]
  refine ⟨h1, ?_⟩
  rw [h1]
  decide

/-- Claim C4 (amended): when the source token occurs exactly once in the
text, the rewrite replaces that occurrence and is byte-identical to the input
everywhere outside the token region: everything before it and everything
after it (e.g. a trailing rule-name list) is preserved verbatim. -/
theorem claim_C4 (u v : List Char)
    (huniq : ∀ r, headMatch eslintDisableTok
      ((u ++ eslintDisableTok ++ v).drop r) = true → r = u.length) :
    cow_replace (u ++ eslintDisableTok ++ v) eslintDisableTok oxlintDisableTok
        = u ++ oxlintDisableTok ++ v ∧
      (cow_replace (u ++ eslintDisableTok ++ v) eslintDisableTok
          oxlintDisableTok).take u.length
        = (u ++ eslintDisableTok ++ v).take u.length ∧
      (cow_replace (u ++ eslintDisableTok ++ v) eslintDisableTok
          oxlintDisableTok).drop (u.length + eslintDisableTok.length)
        = (u ++ eslintDisableTok ++ v).drop (u.length + eslintDisableTok.length) := by
  have h14 : eslintDisableTok.length = 14 := by decide
  have hno1 : ∀ r, r < u.length →
      headMatch eslintDisableTok ((u ++ eslintDisableTok ++ v).drop r) = false := by
    intro r hr
    cases hx : headMatch eslintDisableTok ((u ++ eslintDisableTok ++ v).drop r)
    · rfl
    · exact absurd (huniq r hx) (by omega)
  have hvno : ∀ r, headMatch eslintDisableTok (v.drop r) = false := by
    intro r
    cases hx : headMatch eslintDisableTok (v.drop r)
    · rfl
    · exfalso
      have hshift : (u ++ eslintDisableTok ++ v).drop
          ((u ++ eslintDisableTok).length + r) = v.drop r := List.drop_append r
      rw [← hshift] at hx
      have hq := huniq _ hx
      simp only [List.length_append] at hq
      omega
  have hmain := @cow_keep eslintDisableTok oxlintDisableTok (by decide) u v hno1
  rw [cow_no_occ hvno] at hmain
  refine ⟨hmain, ?_, ?_⟩
  · rw [hmain, List.append_assoc, List.append_assoc, List.take_left,
      List.take_left]
  · rw [hmain,
      List.drop_left' (show (u ++ oxlintDisableTok).length
        = u.length + eslintDisableTok.length by
          rw [List.length_append]
          have : oxlintDisableTok.length = 14 := by decide
          omega),
      List.drop_left' (show (u ++ eslintDisableTok).length
        = u.length + eslintDisableTok.length from List.length_append _ _)]

/-- Witness for C4: the spec scenario `"// eslint-disable no-use-before-define"`
rewrites to `"// oxlint-disable no-use-before-define"`, preserving the prefix
and the trailing rule name. -/
theorem claim_C4_witness :
    cow_replace ("// ".toList ++ eslintDisableTok ++
          " no-use-before-define".toList) eslintDisableTok oxlintDisableTok
        = "// ".toList ++ oxlintDisableTok ++ " no-use-before-define".toList ∧
      (cow_replace ("// ".toList ++ eslintDisableTok ++
          " no-use-before-define".toList) eslintDisableTok
          oxlintDisableTok).take ("// ".toList).length
        = (("// ".toList ++ eslintDisableTok ++
          " no-use-before-define".toList)).take ("// ".toList).length ∧
      (cow_replace ("// ".toList ++ eslintDisableTok ++
          " no-use-before-define".toList) eslintDisableTok
          oxlintDisableTok).drop (("// ".toList).length + eslintDisableTok.length)
        = (("// ".toList ++ eslintDisableTok ++
          " no-use-before-define".toList)).drop
            (("// ".toList).length + eslintDisableTok.length) :=
  claim_C4 "// ".toList " no-use-before-define".toList (fun r h => by
    have hb : r < 38 := by
      have h1 := occ_bound (by decide) h
      have h2 : (("// ".toList ++ eslintDisableTok ++
          " no-use-before-define".toList)).length = 38 := by decide
      omega
    exact (by decide : ∀ j, j < 38 → headMatch eslintDisableTok
      ((("// ".toList ++ eslintDisableTok ++
        " no-use-before-define".toList)).drop j) = true → j = 3) r hb h)

/-- Counterexample for C4 as stated: the scanner matches
`"// eslint-disable eslint-disable"` (token region at offsets 3–17), yet the
rewritten text also differs from the input beyond offset 17, because the
second occurrence is substituted as well. -/
theorem claim_C4_cex :
    find_eslint_comment_directive "// eslint-disable eslint-disable".toList true
        = some "disable".toList ∧
      (run_once_fix "// eslint-disable eslint-disable".toList
          "disable".toList).drop 17
        ≠ ("// eslint-disable eslint-disable".toList).drop 17 := by
  have h1 : run_once_fix "// eslint-disable eslint-disable".toList
      "disable".toList
      = "// oxlint-disable oxlint-disable".toList := by
    simp [run_once_fix, disableTok, cow_replace, eslintDisableTok,
      oxlintDisableTok, headMatch]
  refine ⟨by decide, ?_⟩
  rw [h1]
  decide

/-- Claim C5 (amended): for a text holding exactly one occurrence of
`"eslint-disable"`, and that occurrence extended to `"eslint-disable-next-line"`,
rewriting with the short token pair and rewriting with the long token pair
produce the same output.  (Without the uniqueness restriction the two
replace-all rewrites can diverge — see the counterexample.) -/
theorem claim_C5 (u w : List Char)
    (huniq : ∀ r, headMatch eslintDisableTok
      ((u ++ eslintDisableNextLineTok ++ w).drop r) = true → r = u.length) :
    cow_replace (u ++ eslintDisableNextLineTok ++ w) eslintDisableTok
        oxlintDisableTok
      = cow_replace (u ++ eslintDisableNextLineTok ++ w)
          eslintDisableNextLineTok oxlintDisableNextLineTok := by
  have h14 : eslintDisableTok.length = 14 := by decide
  have h24 : eslintDisableNextLineTok.length = 24 := by decide
  have hs : u ++ eslintDisableNextLineTok ++ w
      = u ++ eslintDisableTok ++ (nextLineTail ++ w) := by
    rw [long_split]
    simp [List.append_assoc]
  have hshort_no : ∀ r,
      headMatch eslintDisableTok ((nextLineTail ++ w).drop r) = false := by
    intro r
    cases hx : headMatch eslintDisableTok ((nextLineTail ++ w).drop r)
    · rfl
    · exfalso
      have hshift : (u ++ eslintDisableTok ++ (nextLineTail ++ w)).drop
          ((u ++ eslintDisableTok).length + r) = (nextLineTail ++ w).drop r :=
        List.drop_append r
      rw [← hshift, ← hs] at hx
      have hq := huniq _ hx
      simp only [List.length_append] at hq
      omega
  have hno1 : ∀ r, r < u.length → headMatch eslintDisableTok
      ((u ++ eslintDisableTok ++ (nextLineTail ++ w)).drop r) = false := by
    intro r hr
    cases hx : headMatch eslintDisableTok
        ((u ++ eslintDisableTok ++ (nextLineTail ++ w)).drop r)
    · rfl
    · rw [← hs] at hx
      exact absurd (huniq r hx) (by omega)
  have hL : cow_replace (u ++ eslintDisableTok ++ (nextLineTail ++ w))
      eslintDisableTok oxlintDisableTok
      = u ++ oxlintDisableTok ++ (nextLineTail ++ w) := by
    have := @cow_keep eslintDisableTok oxlintDisableTok (by decide) u
      (nextLineTail ++ w) hno1
    rwa [cow_no_occ hshort_no] at this
  have hno2 : ∀ r, r < u.length → headMatch eslintDisableNextLineTok
      ((u ++ eslintDisableNextLineTok ++ w).drop r) = false := by
    intro r hr
    cases hx : headMatch eslintDisableNextLineTok
        ((u ++ eslintDisableNextLineTok ++ w).drop r)
    · rfl
    · exfalso
      have hxs : headMatch eslintDisableTok
          ((u ++ eslintDisableNextLineTok ++ w).drop r) = true := by
        rw [long_split] at hx
        exact (hm_append_elim hx).1
      exact absurd (huniq r hxs) (by omega)
  have hw_no : ∀ r,
      headMatch eslintDisableNextLineTok (w.drop r) = false := by
    intro r
    cases hx : headMatch eslintDisableNextLineTok (w.drop r)
    · rfl
    · exfalso
      have hshift : (u ++ eslintDisableNextLineTok ++ w).drop
          ((u ++ eslintDisableNextLineTok).length + r) = w.drop r :=
        List.drop_append r
      rw [← hshift] at hx
      have hxs : headMatch eslintDisableTok
          ((u ++ eslintDisableNextLineTok ++ w).drop
            ((u ++ eslintDisableNextLineTok).length + r)) = true := by
        rw [long_split] at hx
        exact (hm_append_elim hx).1
      have hq := huniq _ hxs
      simp only [List.length_append] at hq
      omega
  have hR : cow_replace (u ++ eslintDisableNextLineTok ++ w)
      eslintDisableNextLineTok oxlintDisableNextLineTok
      = u ++ oxlintDisableNextLineTok ++ w := by
    have := @cow_keep eslintDisableNextLineTok oxlintDisableNextLineTok
      (by decide) u w hno2
    rwa [cow_no_occ hw_no] at this
  rw [hs, hL, ← hs, hR, oxLong_split]
  simp [List.append_assoc]

/-- Witness for C5: the block-comment content `"/* eslint-disable-next-line */"`
holds a unique occurrence, and both rewrites agree on it. -/
theorem claim_C5_witness :
    cow_replace ("/* ".toList ++ eslintDisableNextLineTok ++ " */".toList)
        eslintDisableTok oxlintDisableTok
      = cow_replace ("/* ".toList ++ eslintDisableNextLineTok ++ " */".toList)
          eslintDisableNextLineTok oxlintDisableNextLineTok :=
  claim_C5 "/* ".toList " */".toList (fun r h => by
    have hb : r < 30 := by
      have h1 := occ_bound (by decide) h
      have h2 : (("/* ".toList ++ eslintDisableNextLineTok ++
          " */".toList)).length = 30 := by decide
      omega
    exact (by decide : ∀ j, j < 30 → headMatch eslintDisableTok
      ((("/* ".toList ++ eslintDisableNextLineTok ++
        " */".toList)).drop j) = true → j = 3) r hb h)

/-- Counterexample for C5 as stated: in
`"eslint-disable-next-lineslint-disable-next-line"` every occurrence of
`"eslint-disable"` (offsets 0 and 23) is the textual prefix of an occurrence
of `"eslint-disable-next-line"`, yet the two replace-all rewrites disagree:
the short-token rewrite also rewrites the overlapping occurrence at offset 23,
while the long-token rewrite consumes it while skipping the matched region. -/
theorem claim_C5_cex :
    (∀ r, headMatch eslintDisableTok
        ("eslint-disable-next-lineslint-disable-next-line".toList.drop r) = true →
      headMatch eslintDisableNextLineTok
        ("eslint-disable-next-lineslint-disable-next-line".toList.drop r) = true) ∧
    cow_replace "eslint-disable-next-lineslint-disable-next-line".toList
        eslintDisableTok oxlintDisableTok
      ≠ cow_replace "eslint-disable-next-lineslint-disable-next-line".toList
          eslintDisableNextLineTok oxlintDisableNextLineTok := by
  constructor
  · intro r h
    have hb : r < 47 := by
      have h1 := occ_bound (by decide) h
      have h2 : ("eslint-disable-next-lineslint-disable-next-line".toList).length
          = 47 := by decide
      omega
    exact (by decide : ∀ j, j < 47 → headMatch eslintDisableTok
      ("eslint-disable-next-lineslint-disable-next-line".toList.drop j) = true →
      headMatch eslintDisableNextLineTok
        ("eslint-disable-next-lineslint-disable-next-line".toList.drop j)
        = true) r hb h
  · have e1 : cow_replace "eslint-disable-next-lineslint-disable-next-line".toList
        eslintDisableTok oxlintDisableTok
        = "oxlint-disable-next-linoxlint-disable-next-line".toList := by
      simp [cow_replace, eslintDisableTok, oxlintDisableTok, headMatch]
    have e2 : cow_replace "eslint-disable-next-lineslint-disable-next-line".toList
        eslintDisableNextLineTok oxlintDisableNextLineTok
        = "oxlint-disable-next-lineslint-disable-next-line".toList := by
      simp [cow_replace, eslintDisableNextLineTok, oxlintDisableNextLineTok,
        headMatch]
    rw [e1, e2]
    decide

/-- Rescanning any rewritten text finds no directive: every occurrence of
`"eslint-disable"` surviving the rewrite is immediately preceded by
`"oxlint-disabl"` (`cow_p`), whose characters fail the anchoring check and
which cannot straddle the start of the scanned line. -/
theorem rescan_none (raw : List Char) (flag : Bool) :
    find_eslint_comment_directive
      (cow_replace raw eslintDisableTok oxlintDisableTok) flag = none := by
  cases hf : find_eslint_comment_directive
      (cow_replace raw eslintDisableTok oxlintDisableTok) flag with
  | none => rfl
  | some d2 =>
    exfalso
    obtain ⟨i, hfs, hanch, hmSD, -⟩ := find_some_inv hf
    rw [List.drop_drop] at hmSD
    obtain ⟨h13, hp⟩ := cow_p hmSD
    have hp13 : pre13.length = 13 := by decide
    by_cases hi : 13 ≤ i
    · have hq : (cow_replace raw eslintDisableTok oxlintDisableTok).drop
          (multi_len (cow_replace raw eslintDisableTok oxlintDisableTok) + i - 13)
          = ((cow_replace raw eslintDisableTok oxlintDisableTok).drop
            (multi_len (cow_replace raw eslintDisableTok oxlintDisableTok))).drop
              (i - 13) := by
        rw [List.drop_drop]
        congr 1
        omega
      rw [hq] at hp
      have ht13 := hm_take hp
      rw [hp13] at ht13
      have hsplit : ((cow_replace raw eslintDisableTok oxlintDisableTok).drop
          (multi_len (cow_replace raw eslintDisableTok oxlintDisableTok))).take i
          = ((cow_replace raw eslintDisableTok oxlintDisableTok).drop
            (multi_len (cow_replace raw eslintDisableTok
              oxlintDisableTok))).take (i - 13) ++ pre13 := by
        conv_lhs => rw [show i = (i - 13) + 13 by omega]
        rw [List.take_add, ht13]
      rw [hsplit, List.all_append] at hanch
      have hall2 := (Bool.and_eq_true _ _).mp hanch
      have ho : leadOk flag 'o' = true :=
        List.all_eq_true.mp hall2.2 'o' (by decide)
      cases flag
      · exact absurd ho (by decide)
      · exact absurd ho (by decide)
    · have hm1 : 1 ≤ multi_len (cow_replace raw eslintDisableTok
          oxlintDisableTok) := by omega
      have hnl := multi_len_nl hm1
      have ht13 := hm_take hp
      rw [hp13] at ht13
      have hj : pre13[12 - i]? = (cow_replace raw eslintDisableTok
          oxlintDisableTok)[multi_len (cow_replace raw eslintDisableTok
            oxlintDisableTok) - 1]? := by
        rw [← ht13, List.getElem?_take_of_lt (by omega : 12 - i < 13),
          List.getElem?_drop]
        congr 1
        omega
      rw [hnl] at hj
      exact (by decide : ∀ j, j < 13 → pre13[j]? ≠ some '\n') (12 - i)
        (by omega) hj

/-- Claim C6: whenever the scanner matches, applying the corresponding
`run_once` rewrite and rescanning the result with the same prefix token
yields no match: the directive is fully renamed into the target namespace. -/
theorem claim_C6 (raw : List Char) (flag : Bool) (d : List Char)
    (h : find_eslint_comment_directive raw flag = some d) :
    find_eslint_comment_directive (run_once_fix raw d) flag = none := by
  obtain ⟨i, -, -, -, hd⟩ := find_some_inv h
  subst hd
  have hfix : run_once_fix raw disableTok
      = cow_replace raw eslintDisableTok oxlintDisableTok := by
    unfold run_once_fix
    rw [if_pos rfl]
  rw [hfix]
  exact rescan_none raw flag

/-- Witness for C6: `"// eslint-disable"` scans to `"disable"`, and rescanning
its rewrite (which is `"// oxlint-disable"`, the claim's target-namespace
scenario) reports no match. -/
theorem claim_C6_witness :
    find_eslint_comment_directive "// eslint-disable".toList true
        = some "disable".toList ∧
      find_eslint_comment_directive
        (run_once_fix "// eslint-disable".toList "disable".toList) true = none :=
  ⟨by decide, claim_C6 "// eslint-disable".toList true "disable".toList
    (by decide)⟩

